import Mathlib

/-!
Shallow embedding of the categorical round-trip logic of
`src/prophet_forecast.py` (functions `sanitize_column_names` and `undummy`,
and the `pd.get_dummies(data, columns=[c])` encoding call), together with
proofs of the spec's claims about it.

A pandas `DataFrame` is modelled as an ordered list of named columns, each an
ordered list of cell values.  Cell values are strings or integers (`Val`);
boolean indicator cells are modelled as the integers 0/1, matching the 0/1
reading the spec itself uses for indicator columns.  Fallible pandas
operations are modelled with `Option`/`Except`.
-/

namespace DemandForecast

/-- A cell value of a data frame: a string label or a number.  Indicator
(one-hot) cells are `num 0` / `num 1`. -/
inductive Val
  | str : String → Val
  | num : Int → Val
deriving DecidableEq, Repr

/-- Numeric reading of a cell, used by row-wise `idxmax`.  pandas would raise
on comparing non-numeric cells; every theorem below that touches `idxmax`
only does so on columns whose cells are all `num`, so the value returned on a
`str` cell is never relevant. -/
def Val.asNum : Val → Int
  | .str _ => 0
  | .num n => n

/-- Whether a cell is a string label. -/
def Val.isStr : Val → Bool
  | .str _ => true
  | .num _ => false

/-- Whether a cell is numeric. -/
def Val.isNum : Val → Bool
  | .str _ => false
  | .num _ => true

/-- The string pandas uses for a level when building a dummy-column name
(`str(v)` of the cell value). -/
def Val.levelName : Val → String
  | .str s => s
  | .num n => toString n

/-- A data frame: ordered named columns, each an ordered list of cells.
Rows are the common index positions of the columns. -/
structure Table where
  cols : List (String × List Val)
deriving DecidableEq, Repr

/-- Number of rows: length of the first column (0 for a column-less frame). -/
def Table.nrows (t : Table) : Nat :=
  match t.cols with
  | [] => 0
  | q :: _ => q.2.length

/-- The column names of a table, in order. -/
def Table.names (t : Table) : List String :=
  t.cols.map Prod.fst

/-- A table is well-formed when every column has the same length `n`. -/
def Table.Wf (t : Table) (n : Nat) : Prop :=
  ∀ q ∈ t.cols, q.2.length = n

instance (t : Table) (n : Nat) : Decidable (t.Wf n) :=
  inferInstanceAs (Decidable (∀ q ∈ t.cols, q.2.length = n))

/-! ### `sanitize_column_names` (src/prophet_forecast.py lines 14-18)

```python
def sanitize_column_names(df):
    df.columns = df.columns.str.replace(r'[^a-zA-Z0-9_]', '_', regex=True)
    df.columns = df.columns.str.replace(r'__+', '_', regex=True)
    df.columns = df.columns.str.strip('_')
    return df
```
Step 1 replaces every character outside `[a-zA-Z0-9_]` by `_`; step 2
collapses every run of two or more `_` to a single `_`; step 3 strips
leading and trailing `_`. -/

/-- Step 1, per character: `re.sub(r'[^a-zA-Z0-9_]', '_', ·)`. -/
def sanitizeChar (c : Char) : Char :=
  if c.isAlphanum || c = '_' then c else '_'

/-- Step 2: `re.sub(r'__+', '_', ·)` — collapse each run of `_`s to one. -/
def collapseU : List Char → List Char
  | [] => []
  | c :: cs =>
    if c = '_' then '_' :: collapseU (cs.dropWhile (· = '_'))
    else c :: collapseU cs
termination_by l => l.length
decreasing_by
  · simpa using Nat.lt_succ_of_le (List.dropWhile_suffix _).sublist.length_le
  · simp

/-- Step 3: `str.strip('_')` — drop leading and trailing underscores. -/
def stripU (l : List Char) : List Char :=
  ((l.dropWhile (· = '_')).reverse.dropWhile (· = '_')).reverse

/-- The full sanitization applied to one column name. -/
def sanitizeName (s : String) : String :=
  ⟨stripU (collapseU (s.data.map sanitizeChar))⟩

/-- `sanitize_column_names`: rewrites `df.columns`, leaving cell values
untouched, and returns the frame. -/
def sanitize_column_names (t : Table) : Table :=
  ⟨t.cols.map (fun q => (sanitizeName q.1, q.2))⟩

/-! ### `pd.get_dummies(data, columns=[c])` (src/prophet_forecast.py line 48)

The script's encode step is the pandas call
`pd.get_dummies(data, columns=['distribution_center_name', 'product_name'])`,
one categorical column at a time.  pandas semantics for a single column `c`:
the distinct observed values of `c` become the levels, sorted ascending; for
each level `v` a column named `c + "_" + str(v)` is appended after the
remaining columns, holding 1 where the row's value equals `v` and 0
otherwise; column `c` itself is removed.  A missing column raises `KeyError`,
modelled as `none`. -/

/-- Lexicographic (code-point) comparison of strings as character lists —
the order Python uses on `str`, hence the order pandas sorts levels by. -/
def charListLe : List Char → List Char → Bool
  | [], _ => true
  | _ :: _, [] => false
  | a :: as, b :: bs => if a < b then true else if b < a then false else charListLe as bs

/-- Insertion step for sorting level names ascending. -/
def insertSorted (s : String) : List String → List String
  | [] => [s]
  | x :: xs => if charListLe s.data x.data then s :: x :: xs else x :: insertSorted s xs

/-- Sort level names ascending (pandas sorts the levels of a dummified
column). -/
def sortStrings : List String → List String
  | [] => []
  | s :: ss => insertSorted s (sortStrings ss)

/-- The distinct observed levels of a column, as sorted strings. -/
def levelsOf (vs : List Val) : List String :=
  sortStrings (vs.map Val.levelName).dedup

/-- The indicator cell for level `l` at a row whose categorical value is
`v`: 1 if the value names that level, else 0. -/
def indicator (l : String) (v : Val) : Val :=
  .num (if v.levelName = l then 1 else 0)

/-- The block of indicator columns `get_dummies` builds for column `c` with
cells `vs`: one column `c ++ "_" ++ l` per distinct level `l`, sorted. -/
def dummyCols (c : String) (vs : List Val) : List (String × List Val) :=
  (levelsOf vs).map (fun l => (c ++ "_" ++ l, vs.map (indicator l)))

/-- `pd.get_dummies(t, columns=[c])`: drop column `c`, append its indicator
block.  `none` when `c` is absent (pandas `KeyError`). -/
def get_dummies (t : Table) (c : String) : Option Table :=
  match t.cols.find? (fun q => q.1 = c) with
  | none => none
  | some q => some ⟨t.cols.filter (fun r => ¬ r.1 = c) ++ dummyCols c q.2⟩

/-! ### `undummy` (src/prophet_forecast.py lines 22-26)

```python
def undummy(df, prefix):
    dummy_cols = [col for col in df.columns if col.startswith(prefix)]
    df[prefix.rstrip('_')] = df[dummy_cols].idxmax(axis=1).str.replace(prefix, '')
    df.drop(columns=dummy_cols, inplace=True)
    return df
```
Row-wise `idxmax` is numpy first-argmax: the label of the first column
attaining the row maximum.  On a frame with at least one row and zero
selected columns it raises `ValueError` ("attempt to get argmax of an empty
sequence"); with zero rows it returns an empty series.  `Series.str.replace`
with a plain string deletes every (leftmost-first, non-overlapping)
occurrence of `prefix` from the label, and `str.rstrip('_')` removes every
trailing underscore from the new column's name. -/

/-- The error surfaced by `undummy`.  `valueError` is the pandas/numpy
`ValueError` raised by row-wise `idxmax` over an empty column set.
`schemaError` is the dedicated "no columns to decode" error the spec calls
`SchemaError`/`ConfigurationError`; no code path of the source produces it —
it exists so that statements can compare the code's behaviour against the
spec's named error. -/
inductive PdError
  | valueError
  | schemaError
deriving DecidableEq, Repr

/-- `col.startswith(prefix)`: character-wise prefix test. -/
def strStartsWith (p s : String) : Bool :=
  p.data.isPrefixOf s.data

/-- `str.rstrip('_')`: remove all trailing underscores. -/
def rstripU (s : String) : String :=
  ⟨(s.data.reverse.dropWhile (· = '_')).reverse⟩

/-- Whether `pat` occurs as a contiguous run inside `l`. -/
def hasSub (pat : List Char) : List Char → Bool
  | [] => false
  | c :: cs => pat.isPrefixOf (c :: cs) || hasSub pat cs

/-- Delete every occurrence of `pat` from `l`, scanning left to right,
non-overlapping — the semantics of Python/pandas `str.replace(pat, '')`.
An empty pattern deletes nothing. -/
def replaceAllChars (pat : List Char) (l : List Char) : List Char :=
  match l with
  | [] => []
  | c :: cs =>
    if pat ≠ [] ∧ pat.isPrefixOf (c :: cs) then
      replaceAllChars pat ((c :: cs).drop pat.length)
    else c :: replaceAllChars pat cs
termination_by l.length
decreasing_by
  · rename_i h
    obtain ⟨hne, -⟩ := h
    have : 0 < pat.length := List.length_pos.mpr hne
    simp only [List.length_drop, List.length_cons]
    omega
  · simp

/-- `Series.str.replace(pat, '')` applied to one string. -/
def strDropAll (pat s : String) : String :=
  ⟨replaceAllChars pat.data s.data⟩

/-- One row's `(label, numeric value)` entries across a list of columns. -/
def rowEntries (cols : List (String × List Val)) (i : Nat) : List (String × Int) :=
  cols.map (fun q => (q.1, (q.2.getD i (Val.num 0)).asNum))

/-- Fold keeping the current best `(label, value)` entry; a later entry wins
only with a strictly greater value (numpy first-argmax tie-break). -/
def argmaxAcc (best : String × Int) : List (String × Int) → String × Int
  | [] => best
  | e :: es => argmaxAcc (if e.2 > best.2 then e else best) es

/-- `idxmax` over one row: label of the first entry with maximal value;
`none` on an empty entry list. -/
def firstArgmaxRow : List (String × Int) → Option String
  | [] => none
  | e :: es => some (argmaxAcc e es).1

/-- The decoded cell list `df[dummy_cols].idxmax(axis=1).str.replace(prefix, '')`:
for each of `n` rows, the first-argmax label over the selected columns with
every occurrence of `p` deleted. -/
def decodeVals (p : String) (dummy : List (String × List Val)) (n : Nat) : List Val :=
  (List.range n).map (fun i =>
    Val.str (strDropAll p ((firstArgmaxRow (rowEntries dummy i)).getD "")))

/-- `df[name] = vs`: overwrite the column in place when the name exists,
otherwise append it. -/
def assignCol (cols : List (String × List Val)) (name : String) (vs : List Val) :
    List (String × List Val) :=
  if cols.any (fun q => q.1 = name) then
    cols.map (fun q => if q.1 = name then (name, vs) else q)
  else cols ++ [(name, vs)]

/-- `undummy(df, prefix)`.  Matched columns are captured first; `idxmax`
raises `ValueError` when the match is empty and the frame has rows; the
decoded series is written to column `prefix.rstrip('_')`; the matched
columns are then dropped by name. -/
def undummy (t : Table) (p : String) : Except PdError Table :=
  let dummy := t.cols.filter (fun q => strStartsWith p q.1)
  if dummy.isEmpty ∧ t.nrows ≠ 0 then .error .valueError
  else
    let decoded := decodeVals p dummy t.nrows
    let dummyNames := dummy.map Prod.fst
    let assigned := assignCol t.cols (rstripU p) decoded
    .ok ⟨assigned.filter (fun q => ¬ q.1 ∈ dummyNames)⟩

/-! ### Lemmas about the sanitizer -/

/-- Characters surviving step 1 untouched: `[a-zA-Z0-9_]`. -/
def safeChar (c : Char) : Bool :=
  c.isAlphanum || c = '_'

/-- No two consecutive underscores. -/
def NoRun (l : List Char) : Prop :=
  l.Chain' (fun a b => ¬(a = '_' ∧ b = '_'))

theorem safeChar_sanitizeChar (c : Char) : safeChar (sanitizeChar c) = true := by
  unfold sanitizeChar
  by_cases h : c.isAlphanum || c = '_'
  · simpa [h] using by simpa [safeChar] using h
  · simp [h, safeChar]

theorem sanitizeChar_eq_self {c : Char} (h : safeChar c = true) : sanitizeChar c = c := by
  unfold sanitizeChar
  simp only [safeChar, Bool.or_eq_true, decide_eq_true_eq] at h
  simp [h]

theorem mem_collapseU {l : List Char} {c : Char} (h : c ∈ collapseU l) :
    c = '_' ∨ c ∈ l := by
  induction l using collapseU.induct with
  | case1 => simp [collapseU] at h
  | case2 xs ih =>
    rw [collapseU, if_pos rfl] at h
    rcases List.mem_cons.mp h with h | h
    · exact Or.inl h
    · rcases ih h with h | h
      · exact Or.inl h
      · exact Or.inr (List.mem_cons_of_mem _ ((xs.dropWhile_suffix _).subset h))
  | case3 x xs hx ih =>
    rw [collapseU, if_neg hx] at h
    rcases List.mem_cons.mp h with h | h
    · exact Or.inr (h ▸ List.mem_cons_self _ _)
    · rcases ih h with h | h
      · exact Or.inl h
      · exact Or.inr (List.mem_cons_of_mem _ h)

theorem head?_collapseU (l : List Char) : (collapseU l).head? = l.head? := by
  induction l using collapseU.induct with
  | case1 => simp [collapseU]
  | case2 xs ih => rw [collapseU, if_pos rfl]; simp
  | case3 x xs hx ih => rw [collapseU, if_neg hx]; simp

theorem head?_dropWhile_ne {p : Char → Bool} {l : List Char} {c : Char}
    (h : (l.dropWhile p).head? = some c) : p c = false := by
  induction l with
  | nil => simp [List.dropWhile] at h
  | cons x xs ih =>
    by_cases hx : p x
    · rw [List.dropWhile_cons_of_pos hx] at h
      exact ih h
    · rw [List.dropWhile_cons_of_neg hx] at h
      simp only [List.head?_cons, Option.some.injEq] at h
      subst h
      exact Bool.of_not_eq_true hx

theorem noRun_collapseU (l : List Char) : NoRun (collapseU l) := by
  induction l using collapseU.induct with
  | case1 => simp [collapseU, NoRun]
  | case2 xs ih =>
    rw [collapseU, if_pos rfl]
    refine List.chain'_cons'.mpr ⟨?_, ih⟩
    intro b hb
    rw [head?_collapseU] at hb
    have := head?_dropWhile_ne hb
    simp only [decide_eq_false_iff_not] at this
    exact fun hc => this hc.2
  | case3 x xs hx ih =>
    rw [collapseU, if_neg hx]
    refine List.chain'_cons'.mpr ⟨?_, ih⟩
    exact fun b _ hc => hx hc.1

theorem collapseU_eq_self {l : List Char} (h : NoRun l) : collapseU l = l := by
  induction l using collapseU.induct with
  | case1 => simp [collapseU]
  | case2 xs ih =>
    rw [collapseU, if_pos rfl]
    have hxs : xs.dropWhile (· = '_') = xs := by
      cases xs with
      | nil => rfl
      | cons y ys =>
        have hy : ¬ y = '_' := by
          have := List.chain'_cons.mp h
          exact fun hy => this.1 ⟨rfl, hy⟩
        exact List.dropWhile_cons_of_neg (by simpa using hy)
    rw [hxs] at ih ⊢
    rw [ih ((List.chain'_cons'.mp h).2)]
  | case3 x xs hx ih =>
    rw [collapseU, if_neg hx]
    rw [ih ((List.chain'_cons'.mp h).2)]

theorem noRun_reverse {l : List Char} (h : NoRun l) : NoRun l.reverse := by
  rw [NoRun, List.chain'_reverse]
  exact h.imp (fun a b hab hc => hab ⟨hc.2, hc.1⟩)

theorem noRun_of_suffix {l l' : List Char} (h : NoRun l) (hs : l' <:+ l) : NoRun l' :=
  List.Chain'.suffix h hs

theorem noRun_dropWhile {p : Char → Bool} {l : List Char} (h : NoRun l) :
    NoRun (l.dropWhile p) :=
  noRun_of_suffix h (l.dropWhile_suffix p)

theorem mem_stripU {l : List Char} {c : Char} (h : c ∈ stripU l) : c ∈ l := by
  unfold stripU at h
  rw [List.mem_reverse] at h
  have h1 := (List.dropWhile_suffix (l := ((l.dropWhile (· = '_')).reverse)) (· = '_')).subset h
  rw [List.mem_reverse] at h1
  exact (List.dropWhile_suffix (· = '_')).subset h1

theorem noRun_stripU {l : List Char} (h : NoRun l) : NoRun (stripU l) :=
  noRun_reverse (noRun_dropWhile (noRun_reverse (noRun_dropWhile h)))

theorem getLast?_stripU_ne {l : List Char} {c : Char} (h : (stripU l).getLast? = some c) :
    c ≠ '_' := by
  unfold stripU at h
  rw [List.getLast?_reverse] at h
  have := head?_dropWhile_ne h
  simpa using this

theorem head?_stripU_ne {l : List Char} {c : Char} (h : (stripU l).head? = some c) :
    c ≠ '_' := by
  intro hc
  subst hc
  unfold stripU at h
  rw [List.head?_reverse] at h
  set A := l.dropWhile (· = '_') with hA
  have hBne : A.reverse.dropWhile (· = '_') ≠ [] := by
    intro hn
    rw [hn] at h
    simp at h
  obtain ⟨pre, hpre⟩ := A.reverse.dropWhile_suffix (· = '_')
  have hrev : A.reverse.getLast? = some '_' := by
    rw [← hpre, List.getLast?_append_of_ne_nil _ hBne, h]
  rw [List.getLast?_reverse] at hrev
  have := head?_dropWhile_ne hrev
  simp at this

theorem dropWhile_eq_self_of_head? {p : Char → Bool} {l : List Char}
    (h : ∀ c, l.head? = some c → p c = false) : l.dropWhile p = l := by
  cases l with
  | nil => rfl
  | cons x xs =>
    exact List.dropWhile_cons_of_neg (by simp [h x rfl])

theorem stripU_eq_self {l : List Char}
    (h1 : ∀ c, l.head? = some c → c ≠ '_')
    (h2 : ∀ c, l.getLast? = some c → c ≠ '_') : stripU l = l := by
  unfold stripU
  have hA : l.dropWhile (· = '_') = l :=
    dropWhile_eq_self_of_head? (fun c hc => by simpa using h1 c hc)
  rw [hA]
  have hB : l.reverse.dropWhile (· = '_') = l.reverse :=
    dropWhile_eq_self_of_head? (fun c hc => by
      rw [List.head?_reverse] at hc
      simpa using h2 c hc)
  rw [hB, List.reverse_reverse]

theorem safe_mem_sanitizeName {s : String} {c : Char} (h : c ∈ (sanitizeName s).data) :
    safeChar c = true := by
  unfold sanitizeName at h
  have h1 := mem_stripU h
  rcases mem_collapseU h1 with h2 | h2
  · subst h2
    simp [safeChar]
  · obtain ⟨c0, -, rfl⟩ := List.mem_map.mp h2
    exact safeChar_sanitizeChar c0

theorem sanitizeName_idem (s : String) : sanitizeName (sanitizeName s) = sanitizeName s := by
  have hmap : (sanitizeName s).data.map sanitizeChar = (sanitizeName s).data := by
    conv_rhs => rw [show (sanitizeName s).data = (sanitizeName s).data.map id from by simp]
    exact List.map_congr_left (fun c hc => by
      simpa using sanitizeChar_eq_self (safe_mem_sanitizeName hc))
  have hnr : NoRun (sanitizeName s).data := noRun_stripU (noRun_collapseU _)
  show (⟨stripU (collapseU ((sanitizeName s).data.map sanitizeChar))⟩ : String) = sanitizeName s
  rw [hmap, collapseU_eq_self hnr,
    stripU_eq_self (l := (sanitizeName s).data)
      (fun c hc => head?_stripU_ne hc) (fun c hc => getLast?_stripU_ne hc)]

/-! ### Lemmas about occurrence deletion (`str.replace(prefix, '')`) -/

theorem not_hasSub_cons {pat : List Char} {c : Char} {cs : List Char}
    (h : hasSub pat (c :: cs) = false) :
    pat.isPrefixOf (c :: cs) = false ∧ hasSub pat cs = false := by
  rw [hasSub] at h
  exact ⟨by simpa using (Bool.or_eq_false_iff.mp h).1,
    (Bool.or_eq_false_iff.mp h).2⟩

theorem replaceAllChars_of_not_hasSub {pat l : List Char} (h : hasSub pat l = false) :
    replaceAllChars pat l = l := by
  induction l with
  | nil => simp [replaceAllChars]
  | cons c cs ih =>
    obtain ⟨h1, h2⟩ := not_hasSub_cons h
    rw [replaceAllChars]
    rw [if_neg (by simp [h1])]
    rw [ih h2]

theorem replaceAllChars_append_left {pat rest : List Char}
    (hne : pat ≠ []) (h : hasSub pat rest = false) :
    replaceAllChars pat (pat ++ rest) = rest := by
  cases hp : pat with
  | nil => exact absurd hp hne
  | cons p ps =>
    rw [← hp]
    have hcons : pat ++ rest = p :: (ps ++ rest) := by rw [hp]; rfl
    rw [hcons, replaceAllChars]
    rw [if_pos ?side]
    case side =>
      refine ⟨by simp [hp], ?_⟩
      rw [← hcons]
      exact List.isPrefixOf_iff_prefix.mpr (pat.prefix_append rest)
    rw [← hcons, List.drop_left]
    exact replaceAllChars_of_not_hasSub h

theorem strDropAll_prefix_append {p s : String}
    (hne : p.data ≠ []) (h : hasSub p.data s.data = false) :
    strDropAll p (p ++ s) = s := by
  unfold strDropAll
  rw [String.data_append, replaceAllChars_append_left hne h]

/-! ### Lemmas about row-wise first-argmax (`idxmax(axis=1)`) -/

theorem argmaxAcc_keep {L : List (String × Int)} {b : String × Int}
    (h : ∀ x ∈ L, x.2 ≤ b.2) : argmaxAcc b L = b := by
  induction L with
  | nil => rfl
  | cons e es ih =>
    rw [argmaxAcc]
    rw [if_neg (by exact Int.not_lt.mpr (h e (List.mem_cons_self _ _)))]
    exact ih (fun x hx => h x (List.mem_cons_of_mem _ hx))

theorem argmaxAcc_zero_one {nm : String} {L : List (String × Int)} :
    ∀ b : String × Int, b.2 = 0 →
    (∀ x ∈ L, x.2 = 0 ∨ x.2 = 1) → (nm, (1 : Int)) ∈ L →
    (∀ x ∈ L, x.2 = 1 → x.1 = nm) → argmaxAcc b L = (nm, 1) := by
  induction L with
  | nil => intro b _ _ hm _; simp at hm
  | cons e es ih =>
    intro b hb h01 hm huniq
    rw [argmaxAcc]
    rcases h01 e (List.mem_cons_self _ _) with he | he
    · rw [if_neg (by omega)]
      have hm' : (nm, (1 : Int)) ∈ es := by
        rcases List.mem_cons.mp hm with h | h
        · exact absurd (congrArg Prod.snd h).symm (by simp [he])
        · exact h
      exact ih b hb (fun x hx => h01 x (List.mem_cons_of_mem _ hx)) hm'
        (fun x hx => huniq x (List.mem_cons_of_mem _ hx))
    · rw [if_pos (by omega)]
      have hen : e = (nm, 1) := by
        have := huniq e (List.mem_cons_self _ _) he
        exact Prod.ext this he
      subst hen
      exact argmaxAcc_keep (fun x hx =>
        by rcases h01 x (List.mem_cons_of_mem _ hx) with h | h <;> omega)

/-- On a 0/1 row with a unique 1 carried by label `nm`, first-argmax
returns `nm`. -/
theorem firstArgmaxRow_unique_one {nm : String} {L : List (String × Int)}
    (h01 : ∀ x ∈ L, x.2 = 0 ∨ x.2 = 1) (hm : (nm, (1 : Int)) ∈ L)
    (huniq : ∀ x ∈ L, x.2 = 1 → x.1 = nm) :
    firstArgmaxRow L = some nm := by
  cases L with
  | nil => simp at hm
  | cons e es =>
    rw [firstArgmaxRow]
    rcases h01 e (List.mem_cons_self _ _) with he | he
    · have hm' : (nm, (1 : Int)) ∈ es := by
        rcases List.mem_cons.mp hm with h | h
        · exact absurd (congrArg Prod.snd h).symm (by simp [he])
        · exact h
      rw [argmaxAcc_zero_one e he (fun x hx => h01 x (List.mem_cons_of_mem _ hx)) hm'
        (fun x hx => huniq x (List.mem_cons_of_mem _ hx))]
    · have hen : e = (nm, 1) := Prod.ext (huniq e (List.mem_cons_self _ _) he) he
      subst hen
      rw [argmaxAcc_keep (fun x hx =>
        by rcases h01 x (List.mem_cons_of_mem _ hx) with h | h <;> omega)]

/-- Structural specification of `argmaxAcc`: the returned entry splits the
scanned list into a block of strictly smaller earlier entries and a block of
no-greater later entries — exactly "first argmax". -/
theorem argmaxAcc_first_spec (L : List (String × Int)) :
    ∀ b : String × Int, ∃ l₁ l₂, b :: L = l₁ ++ argmaxAcc b L :: l₂ ∧
      (∀ x ∈ l₁, x.2 < (argmaxAcc b L).2) ∧ (∀ x ∈ l₂, x.2 ≤ (argmaxAcc b L).2) := by
  induction L with
  | nil => exact fun b => ⟨[], [], rfl, by simp, by simp⟩
  | cons e es ih =>
    intro b
    rw [argmaxAcc]
    by_cases hgt : e.2 > b.2
    · rw [if_pos hgt]
      obtain ⟨l₁, l₂, hsplit, hlt, hle⟩ := ih e
      refine ⟨b :: l₁, l₂, by rw [List.cons_append, ← hsplit], ?_, hle⟩
      intro x hx
      rcases List.mem_cons.mp hx with hx | hx
      · subst hx
        -- the head of `e :: es` is either the result or strictly below it
        rcases l₁ with _ | ⟨y, l₁'⟩
        · simp only [List.nil_append] at hsplit
          have hres : e = argmaxAcc e es ∧ es = l₂ := by simpa using hsplit
          have h2 : (argmaxAcc e es).2 = e.2 := by rw [← hres.1]
          omega
        · have hy : e = y := by simpa using congrArg List.head? hsplit
          have := hlt y (List.mem_cons_self _ _)
          rw [← hy] at this
          omega
      · exact hlt x hx
    · rw [if_neg hgt]
      obtain ⟨l₁, l₂, hsplit, hlt, hle⟩ := ih b
      rcases l₁ with _ | ⟨y, l₁'⟩
      · simp only [List.nil_append] at hsplit
        have hres : b = argmaxAcc b es ∧ es = l₂ := by simpa using hsplit
        refine ⟨[], e :: l₂, ?_, by simp, ?_⟩
        · simp only [List.nil_append]
          rw [← hres.1, ← hres.2]
        · intro x hx
          rcases List.mem_cons.mp hx with hx | hx
          · subst hx
            have h2 : (argmaxAcc b es).2 = b.2 := by rw [← hres.1]
            omega
          · exact hle x hx
      · have hy : b = y := by simpa using congrArg List.head? hsplit
        have htail : es = l₁' ++ argmaxAcc b es :: l₂ := by
          simpa using congrArg List.tail hsplit
        have hbmem : b ∈ y :: l₁' := hy ▸ List.mem_cons_self _ _
        refine ⟨b :: e :: l₁', l₂, ?_, ?_, hle⟩
        · rw [List.cons_append, List.cons_append, ← htail]
        · intro x hx
          have hb := hlt b hbmem
          rcases List.mem_cons.mp hx with hx | hx
          · rw [hx]
            exact hb
          · rcases List.mem_cons.mp hx with hx | hx
            · rw [hx]
              omega
            · exact hlt x (List.mem_cons_of_mem _ hx)

/-! ### Lemmas about level sorting -/

theorem insertSorted_perm (s : String) (l : List String) :
    List.Perm (insertSorted s l) (s :: l) := by
  induction l with
  | nil => exact List.Perm.refl _
  | cons x xs ih =>
    rw [insertSorted]
    by_cases h : charListLe s.data x.data = true
    · rw [if_pos h]
    · rw [if_neg h]
      exact (List.Perm.cons x ih).trans (List.Perm.swap s x xs)

theorem sortStrings_perm (l : List String) : List.Perm (sortStrings l) l := by
  induction l with
  | nil => exact List.Perm.refl _
  | cons x xs ih =>
    rw [sortStrings]
    exact (insertSorted_perm x (sortStrings xs)).trans (List.Perm.cons x ih)

theorem levelsOf_nodup (vs : List Val) : (levelsOf vs).Nodup :=
  ((sortStrings_perm _).nodup_iff).mpr (List.nodup_dedup _)

theorem mem_levelsOf {vs : List Val} {s : String} :
    s ∈ levelsOf vs ↔ s ∈ vs.map Val.levelName := by
  rw [levelsOf, (sortStrings_perm _).mem_iff, List.mem_dedup]

theorem levelsOf_length (vs : List Val) :
    (levelsOf vs).length = (vs.map Val.levelName).dedup.length :=
  (sortStrings_perm _).length_eq

theorem levelsOf_eq_nil_iff {vs : List Val} : levelsOf vs = [] ↔ vs = [] := by
  constructor
  · intro h
    cases vs with
    | nil => rfl
    | cons v vs' =>
      have : v.levelName ∈ levelsOf (v :: vs') := mem_levelsOf.mpr (by simp)
      rw [h] at this
      simp at this
  · intro h
    subst h
    rfl

/-! ### Table-level helper lemmas -/

theorem find?_of_nodup_mem {l : List (String × List Val)} {c : String} {vs : List Val}
    (hmem : (c, vs) ∈ l) (hnd : (l.map Prod.fst).Nodup) :
    l.find? (fun q => q.1 = c) = some (c, vs) := by
  induction l with
  | nil => simp at hmem
  | cons x xs ih =>
    rw [List.map_cons, List.nodup_cons] at hnd
    by_cases hx : x.1 = c
    · rw [List.find?_cons_of_pos _ (by simpa using hx)]
      rcases List.mem_cons.mp hmem with h | h
      · rw [← h]
      · exact absurd (hx ▸ List.mem_map_of_mem Prod.fst h) (by simpa [hx] using hnd.1)
    · rw [List.find?_cons_of_neg _ (by simpa using hx)]
      rcases List.mem_cons.mp hmem with h | h
      · exact absurd (congrArg Prod.fst h.symm) hx
      · exact ih h hnd.2

theorem filter_ne_eq_self {l : List (String × List Val)} {c : String}
    (h : ∀ q ∈ l, q.1 ≠ c) : l.filter (fun q => ¬ q.1 = c) = l :=
  List.filter_eq_self.mpr (fun q hq => by simpa using h q hq)

theorem perm_cons_filter_ne {l : List (String × List Val)} {c : String} {vs : List Val}
    (hmem : (c, vs) ∈ l) (hnd : (l.map Prod.fst).Nodup) :
    List.Perm l ((c, vs) :: l.filter (fun q => ¬ q.1 = c)) := by
  induction l with
  | nil => simp at hmem
  | cons x xs ih =>
    rw [List.map_cons, List.nodup_cons] at hnd
    rcases List.mem_cons.mp hmem with h | h
    · rw [← h]
      rw [List.filter_cons_of_neg (by simp)]
      have hxs : xs.filter (fun q => ¬ q.1 = c) = xs := by
        refine filter_ne_eq_self (fun q hq hqc => ?_)
        have hc : c ∈ xs.map Prod.fst := by
          rw [← hqc]
          exact List.mem_map_of_mem Prod.fst hq
        rw [← h] at hnd
        exact hnd.1 hc
      rw [hxs]
    · have hxc : x.1 ≠ c := by
        intro hx
        exact hnd.1 (hx ▸ List.mem_map_of_mem Prod.fst h)
      rw [List.filter_cons_of_pos (by simpa using hxc)]
      exact ((ih h hnd.2).cons x).trans (List.Perm.swap (c, vs) x _)

theorem nrows_eq {t : Table} {n : Nat} (hwf : t.Wf n) (hnil : t.cols = [] → n = 0) :
    t.nrows = n := by
  rcases ht : t.cols with _ | ⟨q, rest⟩
  · rw [Table.nrows, ht]
    exact (hnil ht).symm
  · rw [Table.nrows, ht]
    exact hwf q (ht ▸ List.mem_cons_self _ _)

/-! ### Lemmas about the encoded indicator block -/

theorem dummyCols_names (c : String) (vs : List Val) :
    (dummyCols c vs).map Prod.fst = (levelsOf vs).map (fun l => c ++ "_" ++ l) := by
  rw [dummyCols, List.map_map]
  rfl

theorem dummyCols_wf {c : String} {vs : List Val} {q : String × List Val}
    (h : q ∈ dummyCols c vs) : q.2.length = vs.length := by
  obtain ⟨l, -, rfl⟩ := List.mem_map.mp h
  simp

theorem strStartsWith_dummyName (c l : String) :
    strStartsWith (c ++ "_") (c ++ "_" ++ l) = true := by
  rw [strStartsWith]
  have h : (c ++ "_" ++ l).data = (c ++ "_").data ++ l.data := String.data_append _ _
  rw [h]
  exact List.isPrefixOf_iff_prefix.mpr ((c ++ "_").data.prefix_append l.data)

theorem dummyName_ne_base (c l : String) : c ++ "_" ++ l ≠ c := by
  intro h
  have := congrArg (fun s => s.data.length) h
  simp only [String.data_append] at this
  simp at this

theorem dummyName_inj {c l₁ l₂ : String} (h : c ++ "_" ++ l₁ = c ++ "_" ++ l₂) :
    l₁ = l₂ := by
  have hd := congrArg String.data h
  simp only [String.data_append, List.append_cancel_left_eq] at hd
  exact String.ext hd

theorem filter_dummyCols {c : String} {vs : List Val} :
    (dummyCols c vs).filter (fun q => strStartsWith (c ++ "_") q.1) = dummyCols c vs := by
  refine List.filter_eq_self.mpr (fun q hq => ?_)
  obtain ⟨l, -, rfl⟩ := List.mem_map.mp hq
  exact strStartsWith_dummyName c l

/-! ### Lemmas about `undummy`'s pieces -/

theorem Val.str_levelName {v : Val} (h : v.isStr = true) : Val.str v.levelName = v := by
  cases v with
  | str s => rfl
  | num n => simp [Val.isStr] at h

theorem undummy_err {t : Table} {p : String}
    (h1 : t.cols.filter (fun q => strStartsWith p q.1) = [])
    (h2 : t.nrows ≠ 0) : undummy t p = .error .valueError := by
  rw [undummy]
  rw [if_pos ⟨by rw [h1]; rfl, h2⟩]

theorem undummy_ok {t : Table} {p : String}
    (h : ¬((t.cols.filter (fun q => strStartsWith p q.1)).isEmpty = true ∧ t.nrows ≠ 0)) :
    undummy t p = .ok ⟨(assignCol t.cols (rstripU p)
        (decodeVals p (t.cols.filter (fun q => strStartsWith p q.1)) t.nrows)).filter
      (fun q => ¬ q.1 ∈ ((t.cols.filter (fun q => strStartsWith p q.1)).map Prod.fst))⟩ := by
  rw [undummy]
  rw [if_neg h]

theorem assignCol_of_not_mem {cols : List (String × List Val)} {name : String}
    (vs : List Val) (h : ∀ q ∈ cols, q.1 ≠ name) :
    assignCol cols name vs = cols ++ [(name, vs)] := by
  rw [assignCol, if_neg]
  simp only [List.any_eq_true, not_exists, not_and]
  intro q hq
  simpa using h q hq

theorem rstripU_append_underscore {c : String}
    (h : c.data.getLast? ≠ some '_') : rstripU (c ++ "_") = c := by
  rw [rstripU]
  have hd : (c ++ "_").data = c.data ++ ['_'] := String.data_append _ _
  rw [hd, List.reverse_append]
  have hcons : (['_'] : List Char).reverse ++ c.data.reverse = '_' :: c.data.reverse := rfl
  rw [hcons, List.dropWhile_cons_of_pos (by simp)]
  rw [dropWhile_eq_self_of_head? (fun ch hch => by
    rw [List.head?_reverse] at hch
    have hne : ch ≠ '_' := fun he => h (he ▸ hch)
    simpa using hne)]
  rw [List.reverse_reverse]

theorem not_mem_matched_names {l : List (String × List Val)} {p nm : String}
    (h : strStartsWith p nm = false) :
    ¬ nm ∈ (l.filter (fun r => strStartsWith p r.1)).map Prod.fst := by
  intro hmem
  obtain ⟨r, hr, hrn⟩ := List.mem_map.mp hmem
  have := (List.mem_filter.mp hr).2
  rw [hrn] at this
  rw [this] at h
  simp at h

theorem mem_matched_names {l : List (String × List Val)} {p : String}
    {q : String × List Val} (hq : q ∈ l) (h : strStartsWith p q.1 = true) :
    q.1 ∈ (l.filter (fun r => strStartsWith p r.1)).map Prod.fst :=
  List.mem_map_of_mem Prod.fst (List.mem_filter.mpr ⟨hq, h⟩)

theorem getD_map_indicator {vs : List Val} {l : String} {i : Nat} (hi : i < vs.length) :
    (vs.map (indicator l)).getD i (Val.num 0) = indicator l (vs.get ⟨i, hi⟩) := by
  rw [List.getD_eq_getElem?_getD, List.getElem?_map, List.getElem?_eq_getElem hi]
  rfl

theorem rowEntries_dummyCols {c : String} {vs : List Val} {i : Nat} (hi : i < vs.length) :
    rowEntries (dummyCols c vs) i = (levelsOf vs).map (fun l =>
      (c ++ "_" ++ l, if (vs.get ⟨i, hi⟩).levelName = l then (1 : Int) else 0)) := by
  rw [rowEntries, dummyCols, List.map_map]
  refine List.map_congr_left (fun l _ => ?_)
  simp only [Function.comp_apply]
  rw [getD_map_indicator hi, indicator]
  by_cases hl : (vs.get ⟨i, hi⟩).levelName = l
  · rw [if_pos hl]
    rfl
  · rw [if_neg hl]
    rfl

theorem firstArgmaxRow_dummyCols {c : String} {vs : List Val} {i : Nat} (hi : i < vs.length) :
    firstArgmaxRow (rowEntries (dummyCols c vs) i) =
      some (c ++ "_" ++ (vs.get ⟨i, hi⟩).levelName) := by
  rw [rowEntries_dummyCols hi]
  set s := (vs.get ⟨i, hi⟩).levelName with hs
  refine firstArgmaxRow_unique_one ?_ ?_ ?_
  · intro x hx
    obtain ⟨l, -, rfl⟩ := List.mem_map.mp hx
    by_cases hl : s = l
    · rw [if_pos hl]
      right
      rfl
    · rw [if_neg hl]
      left
      rfl
  · have hmem : s ∈ levelsOf vs :=
      mem_levelsOf.mpr (List.mem_map_of_mem Val.levelName (vs.get_mem _ _))
    have := List.mem_map_of_mem
      (fun l => (c ++ "_" ++ l, if s = l then (1 : Int) else 0)) hmem
    simpa using this
  · intro x hx hx1
    obtain ⟨l, -, rfl⟩ := List.mem_map.mp hx
    by_cases hl : s = l
    · rw [hl]
    · rw [if_neg hl] at hx1
      simp at hx1

theorem decodeVals_dummyCols {c : String} {vs : List Val}
    (hstr : ∀ v ∈ vs, v.isStr = true)
    (hsub : ∀ v ∈ vs, hasSub (c ++ "_").data (Val.levelName v).data = false) :
    decodeVals (c ++ "_") (dummyCols c vs) vs.length = vs := by
  rw [decodeVals]
  refine List.ext_getElem (by simp) (fun i h1 h2 => ?_)
  have hi : i < vs.length := h2
  rw [List.getElem_map, List.getElem_range]
  rw [firstArgmaxRow_dummyCols hi]
  have hv : vs[i] = vs.get ⟨i, hi⟩ := rfl
  rw [hv]
  set v := vs.get ⟨i, hi⟩ with hvdef
  have hvm : v ∈ vs := vs.get_mem _ _
  have hpe : (c ++ "_" ++ v.levelName) = (c ++ "_") ++ v.levelName := rfl
  rw [Option.getD_some, hpe, strDropAll_prefix_append ?hne (hsub v hvm)]
  case hne =>
    rw [String.data_append]
    simp
  exact Val.str_levelName (hstr v hvm)

theorem get_dummies_eq {t : Table} {c : String} {vs : List Val}
    (hmem : (c, vs) ∈ t.cols) (hnd : t.names.Nodup) :
    get_dummies t c = some ⟨t.cols.filter (fun r => ¬ r.1 = c) ++ dummyCols c vs⟩ := by
  rw [get_dummies, find?_of_nodup_mem hmem hnd]

theorem strStartsWith_self_underscore (c : String) : strStartsWith (c ++ "_") c = false := by
  rw [strStartsWith]
  cases hb : (c ++ "_").data.isPrefixOf c.data with
  | false => rfl
  | true =>
    have hle := (List.isPrefixOf_iff_prefix.mp hb).length_le
    rw [String.data_append] at hle
    simp at hle

theorem not_mem_dummyNames_of_no_match {c : String} {vs : List Val} {nm : String}
    (h : strStartsWith (c ++ "_") nm = false) :
    ¬ nm ∈ (dummyCols c vs).map Prod.fst := by
  intro hmem
  rw [dummyCols_names] at hmem
  obtain ⟨l, -, rfl⟩ := List.mem_map.mp hmem
  rw [strStartsWith_dummyName] at h
  simp at h

theorem base_not_mem_dummyNames {c : String} {vs : List Val} :
    ¬ c ∈ (dummyCols c vs).map Prod.fst :=
  not_mem_dummyNames_of_no_match (strStartsWith_self_underscore c)

/-! ### Claim theorems -/

/-- C1 (amended).  Round-trip law: for a table `t` with a string-valued
categorical column `c` — provided additionally that no other column's name
starts with `c ++ "_"`, that no level contains `c ++ "_"` as a substring, and
that `c` does not end in `'_'` — `pd.get_dummies` followed by `undummy` with
prefix `c ++ "_"` reproduces the table up to column order, with the
reconstructed categorical column equal to the original, row for row. -/
theorem roundtrip_encode_decode {t : Table} {c : String} {vs : List Val}
    (hmem : (c, vs) ∈ t.cols)
    (hnd : t.names.Nodup)
    (hwf : t.Wf vs.length)
    (hstr : ∀ v ∈ vs, v.isStr = true)
    (hsub : ∀ v ∈ vs, hasSub (c ++ "_").data (Val.levelName v).data = false)
    (hstray : ∀ q ∈ t.cols, q.1 ≠ c → strStartsWith (c ++ "_") q.1 = false)
    (hlast : c.data.getLast? ≠ some '_') :
    ∃ t', get_dummies t c = some t' ∧
      undummy t' (c ++ "_") = .ok ⟨t.cols.filter (fun q => ¬ q.1 = c) ++ [(c, vs)]⟩ ∧
      List.Perm (t.cols.filter (fun q => ¬ q.1 = c) ++ [(c, vs)]) t.cols := by
  have henc := get_dummies_eq hmem hnd
  refine ⟨_, henc, ?_, (List.perm_append_singleton _ _).trans
    (perm_cons_filter_ne hmem hnd).symm⟩
  set others := t.cols.filter (fun r => ¬ r.1 = c) with hothers
  set T : Table := ⟨others ++ dummyCols c vs⟩ with hT
  have hmatch : T.cols.filter (fun q => strStartsWith (c ++ "_") q.1) = dummyCols c vs := by
    show (others ++ dummyCols c vs).filter _ = _
    rw [List.filter_append, filter_dummyCols]
    have hnil : others.filter (fun q => strStartsWith (c ++ "_") q.1) = [] := by
      rw [List.filter_eq_nil_iff]
      intro q hq
      have hq1 : q ∈ t.cols := List.mem_of_mem_filter hq
      have hqc : q.1 ≠ c := by
        have := (List.mem_filter.mp hq).2
        simpa using this
      simp [hstray q hq1 hqc]
    rw [hnil, List.nil_append]
  have hwfT : T.Wf vs.length := by
    intro q hq
    rcases List.mem_append.mp hq with h | h
    · exact hwf q (List.mem_of_mem_filter h)
    · exact dummyCols_wf h
  have hnrT : T.nrows = vs.length := by
    refine nrows_eq hwfT (fun hnil => ?_)
    have hdn : dummyCols c vs = [] := (List.append_eq_nil.mp hnil).2
    have hlv : levelsOf vs = [] := List.map_eq_nil_iff.mp hdn
    rw [levelsOf_eq_nil_iff.mp hlv]
    rfl
  have hcond : ¬((T.cols.filter (fun q => strStartsWith (c ++ "_") q.1)).isEmpty = true ∧
      T.nrows ≠ 0) := by
    rw [hmatch, hnrT]
    rintro ⟨hempty, hne⟩
    have hdn : dummyCols c vs = [] := by rwa [List.isEmpty_iff] at hempty
    have hlv : levelsOf vs = [] := List.map_eq_nil_iff.mp hdn
    rw [levelsOf_eq_nil_iff.mp hlv] at hne
    exact hne rfl
  rw [undummy_ok hcond]
  simp only [hmatch, hnrT]
  rw [rstripU_append_underscore hlast, decodeVals_dummyCols hstr hsub]
  have hne : ∀ q ∈ T.cols, q.1 ≠ c := by
    intro q hq
    rcases List.mem_append.mp hq with h | h
    · have := (List.mem_filter.mp h).2
      simpa using this
    · obtain ⟨l, -, rfl⟩ := List.mem_map.mp h
      exact dummyName_ne_base c l
  rw [assignCol_of_not_mem vs hne]
  have hTcols : T.cols = others ++ dummyCols c vs := rfl
  rw [hTcols, List.filter_append, List.filter_append]
  have h1 : others.filter (fun q => ¬ q.1 ∈ (dummyCols c vs).map Prod.fst) = others := by
    refine List.filter_eq_self.mpr (fun q hq => ?_)
    have hq1 : q ∈ t.cols := List.mem_of_mem_filter hq
    have hqc : q.1 ≠ c := by
      have := (List.mem_filter.mp hq).2
      simpa using this
    simpa using @not_mem_dummyNames_of_no_match c vs q.1 (hstray q hq1 hqc)
  have h2 : (dummyCols c vs).filter (fun q => ¬ q.1 ∈ (dummyCols c vs).map Prod.fst) = [] := by
    rw [List.filter_eq_nil_iff]
    intro q hq
    simpa using List.mem_map_of_mem Prod.fst hq
  have h3 : ([(c, vs)] : List (String × List Val)).filter
      (fun q => ¬ q.1 ∈ (dummyCols c vs).map Prod.fst) = [(c, vs)] := by
    refine List.filter_eq_self.mpr (fun q hq => ?_)
    rw [List.mem_singleton.mp hq]
    simpa using @base_not_mem_dummyNames c vs
  rw [h1, h2, h3, List.append_nil]

/-- Witness for C1: the spec's own concrete scenario — rows `A, B, A` in
column `cat` — encodes to `cat_A, cat_B` and decodes back to the original
table. -/
theorem roundtrip_encode_decode_witness :
    ∃ t', get_dummies ⟨[("cat", [Val.str "A", Val.str "B", Val.str "A"])]⟩ "cat" = some t' ∧
      undummy t' ("cat" ++ "_") =
        .ok ⟨([("cat", [Val.str "A", Val.str "B", Val.str "A"])] :
            List (String × List Val)).filter (fun q => ¬ q.1 = "cat") ++
          [("cat", [Val.str "A", Val.str "B", Val.str "A"])]⟩ ∧
      List.Perm
        (([("cat", [Val.str "A", Val.str "B", Val.str "A"])] :
            List (String × List Val)).filter (fun q => ¬ q.1 = "cat") ++
          [("cat", [Val.str "A", Val.str "B", Val.str "A"])])
        [("cat", [Val.str "A", Val.str "B", Val.str "A"])] :=
  roundtrip_encode_decode (by decide) (by decide) (by decide) (by decide) (by decide)
    (by decide) (by decide)

/-- Counterexample for C1 as stated: with the single level `"xcat_y"` — a
finite label set with no sanitization collision — the decoded column holds
`"xy"`, not `"xcat_y"`, because `Series.str.replace` deletes every occurrence
of the prefix, so the round trip does not reproduce the table. -/
theorem roundtrip_counterexample :
    get_dummies ⟨[("cat", [Val.str "xcat_y"])]⟩ "cat" =
      some ⟨[("cat_xcat_y", [Val.num 1])]⟩ ∧
    undummy ⟨[("cat_xcat_y", [Val.num 1])]⟩ ("cat" ++ "_") =
      .ok ⟨[("cat", [Val.str "xy"])]⟩ ∧
    Val.str "xy" ≠ Val.str "xcat_y" := by
  refine ⟨by decide, ?_, by decide⟩
  simp [undummy, decodeVals, rowEntries, firstArgmaxRow, argmaxAcc, strDropAll,
    replaceAllChars, rstripU, assignCol, strStartsWith, Table.nrows, Val.asNum,
    List.range, List.range.loop]

/-- C2 (amended): `undummy` with a prefix matching zero columns, on a table
with at least one row, fails — but with the generic pandas `ValueError`
coming from row-wise argmax over an empty column set, not with a dedicated
`SchemaError`. -/
theorem undummy_no_match_valueError {t : Table} {p : String}
    (h1 : t.cols.filter (fun q => strStartsWith p q.1) = [])
    (h2 : t.nrows ≠ 0) :
    undummy t p = .error .valueError :=
  undummy_err h1 h2

/-- Witness for C2: a one-row table with a single column `x` and prefix
`zz_`. -/
theorem undummy_no_match_valueError_witness :
    ((⟨[("x", [Val.num 1])]⟩ : Table).cols.filter
        (fun q => strStartsWith "zz_" q.1) = []) ∧
    ((⟨[("x", [Val.num 1])]⟩ : Table).nrows ≠ 0) ∧
    undummy ⟨[("x", [Val.num 1])]⟩ "zz_" = .error .valueError :=
  ⟨by decide, by decide, undummy_no_match_valueError (by decide) (by decide)⟩

/-- Counterexample for C2 as stated: on the same input the error is the
generic `ValueError`, which is not the dedicated `SchemaError` the claim
requires. -/
theorem undummy_no_match_counterexample :
    undummy ⟨[("x", [Val.num 1])]⟩ "zz_" = .error .valueError ∧
    PdError.valueError ≠ PdError.schemaError := by
  refine ⟨?_, by decide⟩
  simp [undummy, strStartsWith, Table.nrows]

/-- C7: decode determinism — `undummy` is a pure function of its input table
and prefix; equal inputs give equal outputs, with no hidden randomness in
the tie-break or anywhere else. -/
theorem undummy_deterministic (t₁ t₂ : Table) (p₁ p₂ : String)
    (h₁ : t₁ = t₂) (h₂ : p₁ = p₂) : undummy t₁ p₁ = undummy t₂ p₂ := by
  rw [h₁, h₂]

/-- Witness for C7 at a concrete table and prefix. -/
theorem undummy_deterministic_witness :
    undummy ⟨[("cat_A", [Val.num 1])]⟩ "cat_" =
      undummy ⟨[("cat_A", [Val.num 1])]⟩ "cat_" :=
  undummy_deterministic ⟨[("cat_A", [Val.num 1])]⟩ ⟨[("cat_A", [Val.num 1])]⟩
    "cat_" "cat_" rfl rfl

/-- C9: `sanitize_column_names` is idempotent — a second application changes
neither the column names nor the cell values, since one application already
leaves only `[a-zA-Z0-9_]` characters with no duplicate, leading, or
trailing underscores. -/
theorem sanitize_column_names_idem (t : Table) :
    sanitize_column_names (sanitize_column_names t) = sanitize_column_names t := by
  simp only [sanitize_column_names, List.map_map]
  congr 1
  refine List.map_congr_left (fun q _ => ?_)
  simp [Function.comp, sanitizeName_idem]

/-- C3 (amended): the encode step performs no sanitization and no collision
check.  It never raises: whenever the column exists it returns a table, and
the (unsanitized) indicator-column names it emits are distinct for distinct
levels.  The repository's sanitizer, a separate step, can still map two
distinct levels' columns to one name with no error raised. -/
theorem encode_no_collision_check {t : Table} {c : String} {vs : List Val}
    (hmem : (c, vs) ∈ t.cols) (hnd : t.names.Nodup) :
    (∃ t', get_dummies t c = some t') ∧
    ∀ l₁ l₂ : String, l₁ ≠ l₂ → c ++ "_" ++ l₁ ≠ c ++ "_" ++ l₂ := by
  refine ⟨⟨_, get_dummies_eq hmem hnd⟩, fun l₁ l₂ h12 he => h12 (dummyName_inj he)⟩

/-- Witness for C3's amended claim at a concrete table. -/
theorem encode_no_collision_check_witness :
    (("cat", [Val.str "New York", Val.str "New.York"]) ∈
      (⟨[("cat", [Val.str "New York", Val.str "New.York"])]⟩ : Table).cols) ∧
    ((∃ t', get_dummies ⟨[("cat", [Val.str "New York", Val.str "New.York"])]⟩ "cat" =
        some t') ∧
      ∀ l₁ l₂ : String, l₁ ≠ l₂ → "cat" ++ "_" ++ l₁ ≠ "cat" ++ "_" ++ l₂) :=
  ⟨by decide, @encode_no_collision_check
    ⟨[("cat", [Val.str "New York", Val.str "New.York"])]⟩ "cat"
    [Val.str "New York", Val.str "New.York"] (by decide) (by decide)⟩

/-- Counterexample for C3 as stated: the distinct levels `"New York"` and
`"New.York"` sanitize to the same name, yet `get_dummies` emits both
indicator columns and succeeds — no `SanitizationCollisionError` is raised,
and no collision check happens at encode time. -/
theorem sanitization_collision_counterexample :
    sanitizeName "New York" = sanitizeName "New.York" ∧
    "New York" ≠ "New.York" ∧
    get_dummies ⟨[("cat", [Val.str "New York", Val.str "New.York"])]⟩ "cat" =
      some ⟨[("cat_New York", [Val.num 1, Val.num 0]),
             ("cat_New.York", [Val.num 0, Val.num 1])]⟩ := by
  refine ⟨?_, by decide, by decide⟩
  simp [sanitizeName, sanitizeChar, stripU, collapseU]

/-- C6: cardinality invariant — encoding a column with `k` distinct observed
levels yields the remaining columns followed by exactly `k` new indicator
columns, each 0/1-valued; exactly 1 column is removed (the original
categorical column), whose name no longer appears in the output. -/
theorem encode_cardinality {t : Table} {c : String} {vs : List Val}
    (hmem : (c, vs) ∈ t.cols) (hnd : t.names.Nodup) :
    ∃ t', get_dummies t c = some t' ∧
      t'.cols = t.cols.filter (fun r => ¬ r.1 = c) ++ dummyCols c vs ∧
      (dummyCols c vs).length = (vs.map Val.levelName).dedup.length ∧
      (t.cols.filter (fun r => ¬ r.1 = c)).length = t.cols.length - 1 ∧
      (∀ q ∈ dummyCols c vs, ∀ v ∈ q.2, v = Val.num 0 ∨ v = Val.num 1) ∧
      ¬ c ∈ t'.names := by
  refine ⟨_, get_dummies_eq hmem hnd, rfl, ?_, ?_, ?_, ?_⟩
  · rw [dummyCols, List.length_map, levelsOf_length]
  · have hp := (perm_cons_filter_ne hmem hnd).length_eq
    rw [List.length_cons] at hp
    omega
  · intro q hq v hv
    obtain ⟨l, -, rfl⟩ := List.mem_map.mp hq
    obtain ⟨v0, -, rfl⟩ := List.mem_map.mp hv
    rw [indicator]
    by_cases hl : v0.levelName = l
    · rw [if_pos hl]
      right
      rfl
    · rw [if_neg hl]
      left
      rfl
  · intro hc
    obtain ⟨q, hq, hq1⟩ := List.mem_map.mp hc
    rcases List.mem_append.mp hq with h | h
    · have := (List.mem_filter.mp h).2
      rw [hq1] at this
      simp at this
    · obtain ⟨l, -, rfl⟩ := List.mem_map.mp h
      exact dummyName_ne_base c l hq1

/-- Witness for C6 at a two-level concrete table. -/
theorem encode_cardinality_witness :
    ∃ t', get_dummies ⟨[("ds", [Val.num 7, Val.num 8]),
        ("cat", [Val.str "A", Val.str "B"])]⟩ "cat" = some t' ∧
      t'.cols = ([("ds", [Val.num 7, Val.num 8]), ("cat", [Val.str "A", Val.str "B"])] :
          List (String × List Val)).filter (fun r => ¬ r.1 = "cat") ++
        dummyCols "cat" [Val.str "A", Val.str "B"] ∧
      (dummyCols "cat" [Val.str "A", Val.str "B"]).length =
        ([Val.str "A", Val.str "B"].map Val.levelName).dedup.length ∧
      (([("ds", [Val.num 7, Val.num 8]), ("cat", [Val.str "A", Val.str "B"])] :
          List (String × List Val)).filter (fun r => ¬ r.1 = "cat")).length =
        ([("ds", [Val.num 7, Val.num 8]), ("cat", [Val.str "A", Val.str "B"])] :
          List (String × List Val)).length - 1 ∧
      (∀ q ∈ dummyCols "cat" [Val.str "A", Val.str "B"], ∀ v ∈ q.2,
        v = Val.num 0 ∨ v = Val.num 1) ∧
      ¬ "cat" ∈ t'.names :=
  @encode_cardinality ⟨[("ds", [Val.num 7, Val.num 8]),
      ("cat", [Val.str "A", Val.str "B"])]⟩ "cat"
    [Val.str "A", Val.str "B"] (by decide) (by decide)

/-- C5: exclusivity invariant — in the encoded table, for every row exactly
one of the emitted indicator columns holds 1, and every indicator cell is
1 or 0. -/
theorem encode_exclusivity {t : Table} {c : String} {vs : List Val}
    (hmem : (c, vs) ∈ t.cols) (hnd : t.names.Nodup) :
    ∃ t', get_dummies t c = some t' ∧
      t'.cols = t.cols.filter (fun r => ¬ r.1 = c) ++ dummyCols c vs ∧
      ∀ i (hi : i < vs.length),
        (dummyCols c vs).countP (fun q => q.2.getD i (Val.num 0) == Val.num 1) = 1 ∧
        ∀ q ∈ dummyCols c vs, q.2.getD i (Val.num 0) = Val.num 1 ∨
          q.2.getD i (Val.num 0) = Val.num 0 := by
  refine ⟨_, get_dummies_eq hmem hnd, rfl, fun i hi => ⟨?_, ?_⟩⟩
  · rw [dummyCols, List.countP_map]
    set s := (vs.get ⟨i, hi⟩).levelName with hs
    have hcongr : (levelsOf vs).countP
        ((fun q : String × List Val => q.2.getD i (Val.num 0) == Val.num 1) ∘
          (fun l => (c ++ "_" ++ l, vs.map (indicator l)))) =
        (levelsOf vs).countP (fun x => x == s) := by
      refine List.countP_congr (fun l _ => ?_)
      simp only [Function.comp_apply]
      rw [getD_map_indicator hi, indicator]
      by_cases hl : s = l
      · rw [if_pos (by rw [← hs]; exact hl)]
        constructor
        · intro _
          exact beq_iff_eq.mpr hl.symm
        · intro _
          rfl
      · rw [if_neg (fun he => hl (by rw [hs]; exact he))]
        constructor
        · intro hb
          simp at hb
        · intro hb
          exact absurd (eq_of_beq hb) (fun he => hl he.symm)
    rw [hcongr]
    exact List.count_eq_one_of_mem (levelsOf_nodup vs)
      (mem_levelsOf.mpr (List.mem_map_of_mem Val.levelName (vs.get_mem _ _)))
  · intro q hq
    obtain ⟨l, -, rfl⟩ := List.mem_map.mp hq
    rw [getD_map_indicator hi, indicator]
    by_cases hl : (vs.get ⟨i, hi⟩).levelName = l
    · rw [if_pos hl]
      left
      rfl
    · rw [if_neg hl]
      right
      rfl

/-- Witness for C5 at a two-level, three-row concrete table. -/
theorem encode_exclusivity_witness :
    ∃ t', get_dummies ⟨[("cat", [Val.str "A", Val.str "B", Val.str "A"])]⟩ "cat" = some t' ∧
      t'.cols = ([("cat", [Val.str "A", Val.str "B", Val.str "A"])] :
          List (String × List Val)).filter (fun r => ¬ r.1 = "cat") ++
        dummyCols "cat" [Val.str "A", Val.str "B", Val.str "A"] ∧
      ∀ i (hi : i < [Val.str "A", Val.str "B", Val.str "A"].length),
        (dummyCols "cat" [Val.str "A", Val.str "B", Val.str "A"]).countP
          (fun q => q.2.getD i (Val.num 0) == Val.num 1) = 1 ∧
        ∀ q ∈ dummyCols "cat" [Val.str "A", Val.str "B", Val.str "A"],
          q.2.getD i (Val.num 0) = Val.num 1 ∨ q.2.getD i (Val.num 0) = Val.num 0 :=
  @encode_exclusivity ⟨[("cat", [Val.str "A", Val.str "B", Val.str "A"])]⟩
    "cat" [Val.str "A", Val.str "B", Val.str "A"] (by decide) (by decide)

theorem startswith_of_mem_matched_names {l : List (String × List Val)} {p nm : String}
    (h : nm ∈ (l.filter (fun r => strStartsWith p r.1)).map Prod.fst) :
    strStartsWith p nm = true := by
  obtain ⟨r, hr, hrn⟩ := List.mem_map.mp h
  have hs := (List.mem_filter.mp hr).2
  rw [hrn] at hs
  exact hs

/-- Common success shape of `undummy`: when at least one column matches and
the destination name `p.rstrip('_')` is fresh, the result keeps the
non-matching columns (in order, values untouched) and appends the decoded
column. -/
theorem undummy_shape {t : Table} {p : String}
    (hne : t.cols.filter (fun q => strStartsWith p q.1) ≠ [])
    (hnames : ∀ q ∈ t.cols, q.1 ≠ rstripU p) :
    undummy t p = .ok ⟨t.cols.filter (fun q => ¬ strStartsWith p q.1) ++
      [(rstripU p, decodeVals p (t.cols.filter (fun q => strStartsWith p q.1)) t.nrows)]⟩ := by
  have hcond : ¬((t.cols.filter (fun q => strStartsWith p q.1)).isEmpty = true ∧
      t.nrows ≠ 0) := by
    rintro ⟨he, -⟩
    exact hne (List.isEmpty_iff.mp he)
  rw [undummy_ok hcond, assignCol_of_not_mem _ hnames, List.filter_append]
  have hA : t.cols.filter (fun q =>
      ¬ q.1 ∈ (t.cols.filter (fun r => strStartsWith p r.1)).map Prod.fst) =
      t.cols.filter (fun q => ¬ strStartsWith p q.1) := by
    refine List.filter_congr (fun q hq => ?_)
    simp only [decide_eq_decide]
    constructor
    · intro hnm hsw
      exact hnm (mem_matched_names hq hsw)
    · intro hsw hnm
      exact hsw (startswith_of_mem_matched_names hnm)
  have hB : ([(rstripU p, decodeVals p (t.cols.filter (fun q => strStartsWith p q.1))
      t.nrows)] : List (String × List Val)).filter (fun q =>
      ¬ q.1 ∈ (t.cols.filter (fun r => strStartsWith p r.1)).map Prod.fst) =
      [(rstripU p, decodeVals p (t.cols.filter (fun q => strStartsWith p q.1)) t.nrows)] := by
    refine List.filter_eq_self.mpr (fun q hq => ?_)
    rw [List.mem_singleton.mp hq]
    simp only [decide_eq_true_eq]
    intro hmem
    obtain ⟨r, hr, hrn⟩ := List.mem_map.mp hmem
    exact hnames r (List.mem_of_mem_filter hr) hrn
  rw [hA, hB]

theorem decodeVals_getD {p : String} {dummy : List (String × List Val)} {n i : Nat}
    (hi : i < n) : (decodeVals p dummy n).getD i (Val.num 0) =
      Val.str (strDropAll p ((firstArgmaxRow (rowEntries dummy i)).getD "")) := by
  rw [decodeVals, List.getD_eq_getElem?_getD, List.getElem?_map, List.getElem?_range hi]
  rfl

/-- The first-argmax split of any nonempty row: the selected entry is
preceded only by strictly smaller entries and followed only by no-greater
ones. -/
theorem firstArgmaxRow_spec {L : List (String × Int)} (h : L ≠ []) :
    ∃ r l₁ l₂, L = l₁ ++ r :: l₂ ∧ firstArgmaxRow L = some r.1 ∧
      (∀ x ∈ l₁, x.2 < r.2) ∧ (∀ x ∈ l₂, x.2 ≤ r.2) := by
  cases L with
  | nil => exact absurd rfl h
  | cons e es =>
    obtain ⟨l₁, l₂, hsplit, hlt, hle⟩ := argmaxAcc_first_spec es e
    exact ⟨argmaxAcc e es, l₁, l₂, hsplit, rfl, hlt, hle⟩

theorem rowEntries_ne_nil {dummy : List (String × List Val)} {i : Nat}
    (h : dummy ≠ []) : rowEntries dummy i ≠ [] := by
  rw [rowEntries]
  intro hc
  exact h (List.map_eq_nil_iff.mp hc)

theorem map_fst_rowEntries (dummy : List (String × List Val)) (i : Nat) :
    (rowEntries dummy i).map Prod.fst = dummy.map Prod.fst := by
  rw [rowEntries, List.map_map]
  exact List.map_congr_left (fun q _ => rfl)

/-- C8 (amended): decode output shape — with at least one matching column and
a fresh destination name, `undummy` keeps the non-matching columns, appends a
single new column named as the prefix with all trailing underscores removed,
drops every matched indicator column, and fills each row with the selected
matched column's name after deleting every occurrence of the prefix from it
(equal to stripping the leading prefix whenever the remainder does not itself
contain the prefix). -/
theorem undummy_output_shape {t : Table} {p : String}
    (hne : t.cols.filter (fun q => strStartsWith p q.1) ≠ [])
    (hnames : ∀ q ∈ t.cols, q.1 ≠ rstripU p) :
    undummy t p = .ok ⟨t.cols.filter (fun q => ¬ strStartsWith p q.1) ++
      [(rstripU p, decodeVals p (t.cols.filter (fun q => strStartsWith p q.1)) t.nrows)]⟩ ∧
    ∀ i, i < t.nrows →
      ∃ nm, nm ∈ (t.cols.filter (fun q => strStartsWith p q.1)).map Prod.fst ∧
        (decodeVals p (t.cols.filter (fun q => strStartsWith p q.1)) t.nrows).getD i
          (Val.num 0) = Val.str (strDropAll p nm) := by
  refine ⟨undummy_shape hne hnames, fun i hi => ?_⟩
  obtain ⟨r, l₁, l₂, hsplit, hfa, -, -⟩ :=
    firstArgmaxRow_spec (rowEntries_ne_nil (i := i) hne)
  refine ⟨r.1, ?_, ?_⟩
  · rw [← map_fst_rowEntries _ i, hsplit]
    exact List.mem_map_of_mem Prod.fst (List.mem_append_right l₁ (List.mem_cons_self r l₂))
  · rw [decodeVals_getD hi, hfa]
    rfl

/-- C10 (amended): frame property of decode — with at least one matching
column and a fresh destination name, every non-matching column survives with
its values and relative order unchanged, and exactly one column is added. -/
theorem undummy_frame {t : Table} {p : String}
    (hne : t.cols.filter (fun q => strStartsWith p q.1) ≠ [])
    (hnames : ∀ q ∈ t.cols, q.1 ≠ rstripU p) :
    ∃ t'', undummy t p = .ok t'' ∧
      t''.cols = t.cols.filter (fun q => ¬ strStartsWith p q.1) ++
        [(rstripU p, decodeVals p (t.cols.filter (fun q => strStartsWith p q.1)) t.nrows)] ∧
      (∀ q ∈ t.cols, strStartsWith p q.1 = false → q ∈ t''.cols) ∧
      t''.cols.length = (t.cols.filter (fun q => ¬ strStartsWith p q.1)).length + 1 := by
  refine ⟨_, undummy_shape hne hnames, rfl, ?_, by simp⟩
  intro q hq hqf
  exact List.mem_append_left _ (List.mem_filter.mpr ⟨hq, by simp [hqf]⟩)

/-- C4: decode selects, per row, the matched column holding the row maximum,
breaking ties by the first such column in column order; the decoded cell is
that column's name with the prefix occurrences deleted. -/
theorem undummy_first_argmax {t : Table} {p : String} {i : Nat}
    (hne : t.cols.filter (fun q => strStartsWith p q.1) ≠ [])
    (hname : ¬ rstripU p ∈ (t.cols.filter (fun q => strStartsWith p q.1)).map Prod.fst)
    (hnum : ∀ q ∈ t.cols.filter (fun q => strStartsWith p q.1), ∀ v ∈ q.2, v.isNum = true)
    (hi : i < t.nrows) :
    ∃ t'', undummy t p = .ok t'' ∧
      (rstripU p, decodeVals p (t.cols.filter (fun q => strStartsWith p q.1)) t.nrows) ∈
        t''.cols ∧
      ∃ r l₁ l₂,
        rowEntries (t.cols.filter (fun q => strStartsWith p q.1)) i = l₁ ++ r :: l₂ ∧
        (∀ x ∈ l₁, x.2 < r.2) ∧ (∀ x ∈ l₂, x.2 ≤ r.2) ∧
        (decodeVals p (t.cols.filter (fun q => strStartsWith p q.1)) t.nrows).getD i
          (Val.num 0) = Val.str (strDropAll p r.1) := by
  have hcond : ¬((t.cols.filter (fun q => strStartsWith p q.1)).isEmpty = true ∧
      t.nrows ≠ 0) := by
    rintro ⟨he, -⟩
    exact hne (List.isEmpty_iff.mp he)
  refine ⟨_, undummy_ok hcond, ?_, ?_⟩
  · refine List.mem_filter.mpr ⟨?_, by simpa using hname⟩
    rw [assignCol]
    by_cases hany : t.cols.any (fun q => q.1 = rstripU p) = true
    · rw [if_pos hany]
      obtain ⟨q, hq, hq1⟩ := List.any_eq_true.mp hany
      refine List.mem_map.mpr ⟨q, hq, ?_⟩
      rw [if_pos (by simpa using hq1)]
    · rw [if_neg hany]
      exact List.mem_append_right _ (List.mem_singleton.mpr rfl)
  · obtain ⟨r, l₁, l₂, hsplit, hfa, hlt, hle⟩ :=
      firstArgmaxRow_spec (rowEntries_ne_nil (i := i) hne)
    refine ⟨r, l₁, l₂, hsplit, hlt, hle, ?_⟩
    rw [decodeVals_getD hi, hfa]
    rfl

/-- Counterexample for C8 as stated: the matched column `cat_cat_A` decodes
to `"A"`, not to `"cat_A"` as leading-prefix stripping would give, because
`Series.str.replace` deletes every occurrence of `"cat_"`. -/
theorem undummy_strip_counterexample :
    undummy ⟨[("cat_cat_A", [Val.num 1])]⟩ ("cat" ++ "_") =
      .ok ⟨[("cat", [Val.str "A"])]⟩ ∧
    Val.str "A" ≠ Val.str "cat_A" := by
  refine ⟨?_, by decide⟩
  simp [undummy, decodeVals, rowEntries, firstArgmaxRow, argmaxAcc, strDropAll,
    replaceAllChars, rstripU, assignCol, strStartsWith, Table.nrows, Val.asNum,
    List.range, List.range.loop]

/-- Witness for C8's amended claim on a three-column concrete table. -/
theorem undummy_output_shape_witness :
    undummy ⟨[("ds", [Val.num 7]), ("cat_A", [Val.num 0]), ("cat_B", [Val.num 1])]⟩
        "cat_" =
      .ok ⟨(⟨[("ds", [Val.num 7]), ("cat_A", [Val.num 0]), ("cat_B", [Val.num 1])]⟩ :
          Table).cols.filter (fun q => ¬ strStartsWith "cat_" q.1) ++
        [(rstripU "cat_", decodeVals "cat_"
          ((⟨[("ds", [Val.num 7]), ("cat_A", [Val.num 0]), ("cat_B", [Val.num 1])]⟩ :
            Table).cols.filter (fun q => strStartsWith "cat_" q.1))
          (⟨[("ds", [Val.num 7]), ("cat_A", [Val.num 0]), ("cat_B", [Val.num 1])]⟩ :
            Table).nrows)]⟩ ∧
    ∀ i, i < (⟨[("ds", [Val.num 7]), ("cat_A", [Val.num 0]), ("cat_B", [Val.num 1])]⟩ :
        Table).nrows →
      ∃ nm, nm ∈ ((⟨[("ds", [Val.num 7]), ("cat_A", [Val.num 0]),
          ("cat_B", [Val.num 1])]⟩ : Table).cols.filter
            (fun q => strStartsWith "cat_" q.1)).map Prod.fst ∧
        (decodeVals "cat_" ((⟨[("ds", [Val.num 7]), ("cat_A", [Val.num 0]),
            ("cat_B", [Val.num 1])]⟩ : Table).cols.filter
              (fun q => strStartsWith "cat_" q.1))
          (⟨[("ds", [Val.num 7]), ("cat_A", [Val.num 0]), ("cat_B", [Val.num 1])]⟩ :
            Table).nrows).getD i (Val.num 0) = Val.str (strDropAll "cat_" nm) :=
  undummy_output_shape (by decide) (by decide)

/-- Counterexample for C10 as stated: with columns `x` (value 5) and `x_A`
and prefix `x_`, the non-matching column `x` does not survive with its
values unchanged — it is overwritten by the decoded column — and no new
column is added. -/
theorem undummy_frame_counterexample :
    undummy ⟨[("x", [Val.num 5]), ("x_A", [Val.num 1])]⟩ "x_" =
      .ok ⟨[("x", [Val.str "A"])]⟩ ∧
    ¬ ("x", [Val.num 5]) ∈ ([("x", [Val.str "A"])] : List (String × List Val)) := by
  refine ⟨?_, by decide⟩
  simp [undummy, decodeVals, rowEntries, firstArgmaxRow, argmaxAcc, strDropAll,
    replaceAllChars, rstripU, assignCol, strStartsWith, Table.nrows, Val.asNum,
    List.range, List.range.loop]

/-- Witness for C10's amended claim on a three-column concrete table. -/
theorem undummy_frame_witness :
    ∃ t'', undummy ⟨[("ds", [Val.num 7]), ("pn_A", [Val.num 1])]⟩ "pn_" = .ok t'' ∧
      t''.cols = (⟨[("ds", [Val.num 7]), ("pn_A", [Val.num 1])]⟩ :
          Table).cols.filter (fun q => ¬ strStartsWith "pn_" q.1) ++
        [(rstripU "pn_", decodeVals "pn_"
          ((⟨[("ds", [Val.num 7]), ("pn_A", [Val.num 1])]⟩ : Table).cols.filter
            (fun q => strStartsWith "pn_" q.1))
          (⟨[("ds", [Val.num 7]), ("pn_A", [Val.num 1])]⟩ : Table).nrows)] ∧
      (∀ q ∈ (⟨[("ds", [Val.num 7]), ("pn_A", [Val.num 1])]⟩ : Table).cols,
        strStartsWith "pn_" q.1 = false → q ∈ t''.cols) ∧
      t''.cols.length = ((⟨[("ds", [Val.num 7]), ("pn_A", [Val.num 1])]⟩ :
        Table).cols.filter (fun q => ¬ strStartsWith "pn_" q.1)).length + 1 :=
  undummy_frame (by decide) (by decide)

/-- Witness for C4 on a concrete table whose row 0 has a tie among the
matched columns: the first matched column in column order is selected. -/
theorem undummy_first_argmax_witness :
    ∃ t'', undummy ⟨[("cat_A", [Val.num 1]), ("cat_B", [Val.num 1])]⟩ "cat_" =
        .ok t'' ∧
      (rstripU "cat_", decodeVals "cat_"
        ((⟨[("cat_A", [Val.num 1]), ("cat_B", [Val.num 1])]⟩ : Table).cols.filter
          (fun q => strStartsWith "cat_" q.1))
        (⟨[("cat_A", [Val.num 1]), ("cat_B", [Val.num 1])]⟩ : Table).nrows) ∈
        t''.cols ∧
      ∃ r l₁ l₂,
        rowEntries ((⟨[("cat_A", [Val.num 1]), ("cat_B", [Val.num 1])]⟩ :
          Table).cols.filter (fun q => strStartsWith "cat_" q.1)) 0 = l₁ ++ r :: l₂ ∧
        (∀ x ∈ l₁, x.2 < r.2) ∧ (∀ x ∈ l₂, x.2 ≤ r.2) ∧
        (decodeVals "cat_" ((⟨[("cat_A", [Val.num 1]), ("cat_B", [Val.num 1])]⟩ :
            Table).cols.filter (fun q => strStartsWith "cat_" q.1))
          (⟨[("cat_A", [Val.num 1]), ("cat_B", [Val.num 1])]⟩ : Table).nrows).getD 0
          (Val.num 0) = Val.str (strDropAll "cat_" r.1) :=
  undummy_first_argmax (by decide) (by decide) (by decide) (by decide)

end DemandForecast
